import Mathlib

/-!
Verification of the page-selection model of the PDF page extractor
(`pdf_extractor_flet.pyw`, with the Tkinter variant sharing the same
`parse_pages` / serializer logic).

The pure core is embedded over `List Char` (Python `str`) and `Finset`
(Python `set`):

* `parse_pages`   — the page-spec parser (`parse_pages`, Flet lines 26-55);
* `serializePages` — the spec string that `update_page_spec_field`
  (Flet lines 988-1028) assigns to the text field, as a pure function of
  the selected set;
* `AppState` and the callback functions — the selection state of
  `PDFExtractorApp` (`self.selected_pages : set`, `self.last_selected_page`,
  the loaded document's page count, and the thumbnail count) together with
  the state transitions performed by the UI callbacks.

Python `int` page numbers entering the click callbacks are modelled as `Int`
(they may be out of range or negative there); page indices produced by the
parser are `Nat`.
-/

deriving instance DecidableEq for Except

/-- Python `sorted` on a multiset of naturals: the ascending enumeration,
computed by insertion sort (well defined because any two permutations have
the same sorted form). -/
def msortAsc (s : Multiset Nat) : List Nat :=
  Quot.liftOn s (fun l => List.insertionSort (· ≤ ·) l)
    (fun l₁ l₂ h =>
      List.eq_of_perm_of_sorted
        ((List.perm_insertionSort _ l₁).trans (h.trans (List.perm_insertionSort _ l₂).symm))
        (List.sorted_insertionSort _ l₁) (List.sorted_insertionSort _ l₂))

/-- Python `sorted(pages)` for a set `pages`: ascending, duplicate-free list. -/
def sortFinset (S : Finset Nat) : List Nat := msortAsc S.val

/-- Python `str.isspace` characters relevant to `str.strip()` (ASCII range). -/
def isPySpace (c : Char) : Bool :=
  c == ' ' || c == '\t' || c == '\n' || c == '\r' || c.toNat == 11 || c.toNat == 12

/-- Python `s.strip()` on a character list: drop whitespace from both ends. -/
def pyStrip (l : List Char) : List Char :=
  ((l.dropWhile isPySpace).reverse.dropWhile isPySpace).reverse

/-- Python `s.split(',')`: split on every comma, keeping empty pieces. -/
def splitComma : List Char → List (List Char)
  | [] => [[]]
  | c :: rest =>
    if c = ',' then [] :: splitComma rest
    else
      match splitComma rest with
      | [] => [[c]]
      | t :: ts => (c :: t) :: ts

/-- Python `int(token)` on a decimal-digit token. -/
def charsToNat (l : List Char) : Nat :=
  l.foldl (fun acc c => 10 * acc + (c.toNat - 48)) 0

/-- Decimal digits of `n`, least significant first, by structural recursion on
a fuel bound (so that the kernel can evaluate it; equal to `Nat.digits 10`). -/
def digitsLEAux : Nat → Nat → List Nat
  | _, 0 => []
  | 0, _ + 1 => []
  | fuel + 1, n + 1 => (n + 1) % 10 :: digitsLEAux fuel ((n + 1) / 10)

/-- Decimal digits of `n`, least significant first. -/
def digitsLE (n : Nat) : List Nat := digitsLEAux n n

/-- Python `str(n)`: decimal rendering, most significant digit first
(for `n = 0` the source never renders it, pages are 1-based). -/
def natToChars (n : Nat) : List Char :=
  (digitsLE n).reverse.map Nat.digitChar

/-- The regex `RANGE_RE = ^(\d+)-(\d+)$` applied to a token: a maximal
nonempty leading digit run, a literal dash, then a nonempty digit run
reaching the end of the token; on success the two captured numbers. -/
def rangeMatch (t : List Char) : Option (Nat × Nat) :=
  let ds := t.takeWhile Char.isDigit
  if ds = [] then none
  else
    match t.dropWhile Char.isDigit with
    | '-' :: rest =>
      if rest ≠ [] ∧ rest.all Char.isDigit then some (charsToNat ds, charsToNat rest)
      else none
    | _ => none

/-- The distinct `ValueError`s raised by `parse_pages`, keyed by their four
distinct message formats.  The spec's RangeError covers `pageOut`,
`inverted` and `rangeOut`; its FormatError is `badFormat`. -/
inductive PError where
  | pageOut (n M : Nat)
  | badFormat (t : List Char)
  | inverted (t : List Char)
  | rangeOut (t : List Char) (M : Nat)
deriving DecidableEq

/-- The spec's RangeError / FormatError classification of a `PError`. -/
def PError.isRangeError : PError → Bool
  | .badFormat _ => false
  | _ => true

/-- The body of the `for token in spec.split(',')` loop of `parse_pages` for
one raw token: strip it, skip it when empty, otherwise match `PAGE_RE` then
`RANGE_RE`, validate, and return the contributed set of 0-based indices
(`{num-1}` resp. `range(a-1, b)`), or the raised error. -/
def classify (M : Nat) (tok : List Char) : Except PError (Finset Nat) :=
  let s := pyStrip tok
  if s = [] then .ok ∅
  else if s.all Char.isDigit then
    let n := charsToNat s
    if 1 ≤ n ∧ n ≤ M then .ok {n - 1}
    else .error (.pageOut n M)
  else
    match rangeMatch s with
    | none => .error (.badFormat s)
    | some (a, b) =>
      if b < a then .error (.inverted s)
      else if a < 1 ∨ M < b then .error (.rangeOut s M)
      else .ok (Finset.Ico (a - 1) b)

/-- Contribution of one token to the accumulated `pages` set (empty for an
invalid token; only used to describe successful parses). -/
def tokSet (M : Nat) (t : List Char) : Finset Nat :=
  match classify M t with
  | .ok c => c
  | .error _ => ∅

/-- The token loop of `parse_pages`: process tokens left to right,
accumulating into `pages`; the first invalid token raises. -/
def accumTokens (M : Nat) : List (List Char) → Finset Nat → Except PError (Finset Nat)
  | [], acc => .ok acc
  | t :: ts, acc =>
    match classify M t with
    | .error e => .error e
    | .ok c => accumTokens M ts (acc ∪ c)

/-- Flet lines 26-55 (`parse_pages(spec, max_page)`): strip the spec, return
`[]` when empty, otherwise split on commas, validate and accumulate every
token, and return the set as an ascending list (`sorted(pages)`). -/
def parse_pages (spec : List Char) (M : Nat) : Except PError (List Nat) :=
  let s := pyStrip spec
  if s = [] then .ok []
  else
    match accumTokens M (splitComma s) ∅ with
    | .error e => .error e
    | .ok pages => .ok (sortFinset pages)

/-- The run-coalescing loop of `update_page_spec_field` (Flet lines 1004-1013)
after its first iteration: `start`/`prev` are the bounds of the run being
grown, and each later page either extends the run or closes it. -/
def runsGo (start prev : Nat) : List Nat → List (Nat × Nat)
  | [] => [(start, prev)]
  | q :: rest =>
    if q = prev + 1 then runsGo start q rest
    else (start, prev) :: runsGo q q rest

/-- The `ranges` list computed by `update_page_spec_field` from the ascending
1-based page list. -/
def runsOf : List Nat → List (Nat × Nat)
  | [] => []
  | p :: rest => runsGo p p rest

/-- The run list of a selected set: sort ascending, convert to 1-based,
coalesce consecutive runs. -/
def pageRuns (S : Finset Nat) : List (Nat × Nat) :=
  runsOf ((sortFinset S).map (· + 1))

/-- One element of `spec_parts` (Flet line 1017): `f'{a}' if a == b else f'{a}-{b}'`. -/
def emitRun (r : Nat × Nat) : List Char :=
  if r.1 = r.2 then natToChars r.1
  else natToChars r.1 ++ '-' :: natToChars r.2

/-- Python `','.join(parts)`. -/
def joinComma : List (List Char) → List Char
  | [] => []
  | [t] => t
  | t :: ts => t ++ ',' :: joinComma ts

/-- The text that `update_page_spec_field` (Flet lines 988-1028, identical in
the Tk `update_page_spec_entry`) writes into the page-spec field, as a pure
function of the selected 0-based index set: `""` for an empty selection,
otherwise the comma-joined coalesced runs. -/
def serializePages (S : Finset Nat) : List Char :=
  if S = ∅ then [] else joinComma ((pageRuns S).map emitRun)

/-- A run list in the spec's canonical form for a 0-based index set `S`:
1-based runs with ordered endpoints, pairwise separated by a gap of at least
one missing page (maximal coalescing), covering exactly the pages `n+1` for
`n ∈ S`. -/
def canonicalRuns (rs : List (Nat × Nat)) (S : Finset Nat) : Prop :=
  (∀ r ∈ rs, 1 ≤ r.1 ∧ r.1 ≤ r.2) ∧
  List.Pairwise (fun r r' : Nat × Nat => r.2 + 1 < r'.1) rs ∧
  (∀ n : Nat, (∃ r ∈ rs, r.1 ≤ n + 1 ∧ n + 1 ≤ r.2) ↔ n ∈ S)

/-- Selection-relevant state of `PDFExtractorApp` (Flet):
`selected_pages : Set[int]` (0-based), `last_selected_page : int`
(`-1` = no anchor), the loaded document's page count (`len(reader.pages)`),
and the thumbnail count (`len(self.thumbnails)`).  Page numbers are Python
ints, so `Int` here. -/
structure AppState where
  selected : Finset Int
  lastSelected : Int
  totalPages : Nat
  thumbs : Nat
deriving DecidableEq

/-- Flet lines 897-907 (`toggle_single_page`): flip membership of
`page_number - 1` in `selected_pages`.  No bounds check, no anchor update. -/
def toggle_single_page (p : Int) (st : AppState) : AppState :=
  AppState.mk
    (if p - 1 ∈ st.selected then st.selected.erase (p - 1)
     else insert (p - 1) st.selected)
    st.lastSelected st.totalPages st.thumbs

/-- Flet lines 926-930 (`toggle_page`): `toggle_single_page` followed by UI
refreshes (which do not change the selection state). -/
def toggle_page (p : Int) (st : AppState) : AppState :=
  toggle_single_page p st

/-- The pages added by the loop of `select_page_range` (Flet lines 909-924):
`page_num - 1` for `page_num` in `range(lo, hi + 1)` passing the
`0 <= idx < len(self.thumbnails)` clip. -/
def clipRange (lo hi : Int) (thumbs : Nat) : Finset Int :=
  ((Finset.Icc lo hi).filter (fun p => 0 ≤ p - 1 ∧ p - 1 < (thumbs : Int))).image
    (fun p => p - 1)

/-- Flet lines 909-924 (`select_page_range`): normalize the two endpoints and
add every clipped index in between; never raises. -/
def select_page_range (startP endP : Int) (st : AppState) : AppState :=
  AppState.mk
    (st.selected ∪ clipRange (min startP endP) (max startP endP) st.thumbs)
    st.lastSelected st.totalPages st.thumbs

/-- Flet lines 872-895 (`handle_page_click`): shift-click with a live anchor
(`last_selected_page >= 0`) selects the range from the anchor, otherwise the
click toggles; afterwards `last_selected_page = page_number`. -/
def handle_page_click (shift : Bool) (p : Int) (st : AppState) : AppState :=
  let st' :=
    if shift = true ∧ 0 ≤ st.lastSelected then
      select_page_range st.lastSelected p st
    else toggle_single_page p st
  AppState.mk st'.selected p st'.totalPages st'.thumbs

/-- Flet lines 932-940 (`select_all_pages`): when thumbnails exist, select
`range(len(self.thumbnails))` and set the anchor past the end. -/
def select_all_pages (st : AppState) : AppState :=
  if st.thumbs = 0 then st
  else
    AppState.mk ((Finset.range st.thumbs).image (fun i : Nat => (i : Int)))
      (st.thumbs : Int) st.totalPages st.thumbs

/-- Flet lines 942-949 (`deselect_all_pages`): clear the selection and the
anchor. -/
def deselect_all_pages (st : AppState) : AppState :=
  AppState.mk ∅ (-1) st.totalPages st.thumbs

/-- Flet lines 951-965 (`on_page_spec_change`): return unchanged when no
thumbnails are loaded or the field text strips to empty; otherwise parse the
text against `len(self.thumbnails)` and on success replace `selected_pages`
wholesale; any parse error is swallowed (`except Exception: pass`). -/
def on_page_spec_change (st : AppState) (v : List Char) : AppState :=
  if st.thumbs = 0 ∨ pyStrip v = [] then st
  else
    match parse_pages v st.thumbs with
    | .ok pages =>
      AppState.mk ((pages.map (fun n : Nat => (n : Int))).toFinset)
        st.lastSelected st.totalPages st.thumbs
    | .error _ => st

/-- Flet lines 363-466 (`load_pdf_and_thumbnails`, successful load of an
`n`-page document): `cleanup_resources` (lines 130-170) clears
`selected_pages` and resets `last_selected_page = -1`, then thumbnails are
generated for `min(total_pages, 100)` pages (line 400). -/
def load_pdf (n : Nat) (_st : AppState) : AppState :=
  AppState.mk ∅ (-1) n (min n 100)

/-- Flet lines 1030-1043 (`clear_thumbnails`): clear thumbnails, selection
and anchor (called from `select_pdf` before the load starts). -/
def clear_thumbnails (st : AppState) : AppState :=
  AppState.mk ∅ (-1) st.totalPages 0

/-- State at application start: nothing loaded, nothing selected. -/
def initState : AppState := AppState.mk ∅ (-1) 0 0

/-- Selection states reachable through the UI wiring: thumbnail click
handlers exist only for pages `1 .. len(self.thumbnails)` (the grids create
one card per thumbnail), the spec field may receive arbitrary text, and
documents of any size may be loaded. -/
inductive Reaches : AppState → Prop where
  | init : Reaches initState
  | load (n : Nat) {st : AppState} : Reaches st → Reaches (load_pdf n st)
  | clearThumbs {st : AppState} : Reaches st → Reaches (clear_thumbnails st)
  | click {st : AppState} (p : Int) : Reaches st → 1 ≤ p → p ≤ (st.thumbs : Int) →
      Reaches (toggle_page p st)
  | shiftClick {st : AppState} (sh : Bool) (p : Int) : Reaches st → 1 ≤ p →
      p ≤ (st.thumbs : Int) → Reaches (handle_page_click sh p st)
  | selAll {st : AppState} : Reaches st → Reaches (select_all_pages st)
  | deselAll {st : AppState} : Reaches st → Reaches (deselect_all_pages st)
  | specChange {st : AppState} (v : List Char) : Reaches st →
      Reaches (on_page_spec_change st v)

/-! ### Decimal rendering and parsing -/

lemma digitsLEAux_eq : ∀ fuel n, n ≤ fuel → digitsLEAux fuel n = Nat.digits 10 n := by
  intro fuel
  induction fuel with
  | zero =>
    intro n h
    have : n = 0 := by omega
    subst this
    simp [digitsLEAux]
  | succ f ih =>
    intro n h
    match n with
    | 0 => simp [digitsLEAux]
    | m + 1 =>
      have hdiv : (m + 1) / 10 < m + 1 := Nat.div_lt_self (Nat.succ_pos m) (by norm_num)
      rw [show digitsLEAux (f + 1) (m + 1) = (m + 1) % 10 :: digitsLEAux f ((m + 1) / 10) from rfl]
      rw [ih ((m + 1) / 10) (by omega)]
      rw [Nat.digits_def' (by norm_num : (1 : Nat) < 10) (Nat.succ_pos m)]

lemma digitsLE_eq (n : Nat) : digitsLE n = Nat.digits 10 n :=
  digitsLEAux_eq n n le_rfl

lemma digitChar_facts : ∀ d : Nat, d < 10 →
    (Nat.digitChar d).isDigit = true ∧ ((Nat.digitChar d).toNat - 48 = d ∧
    isPySpace (Nat.digitChar d) = false ∧ Nat.digitChar d ≠ ',' ∧ Nat.digitChar d ≠ '-') := by
  decide

lemma natToChars_props (n : Nat) : ∀ c ∈ natToChars n,
    c.isDigit = true ∧ isPySpace c = false ∧ c ≠ ',' ∧ c ≠ '-' := by
  intro c hc
  simp only [natToChars, List.mem_map, List.mem_reverse] at hc
  obtain ⟨d, hd, rfl⟩ := hc
  have hd10 : d < 10 := by
    rw [digitsLE_eq] at hd
    exact Nat.digits_lt_base (by norm_num) hd
  obtain ⟨h1, h2, h3, h4, h5⟩ := digitChar_facts d hd10
  exact ⟨h1, h3, h4, h5⟩

lemma natToChars_ne_nil {n : Nat} (h : n ≠ 0) : natToChars n ≠ [] := by
  simp only [natToChars, ne_eq, List.map_eq_nil_iff, List.reverse_eq_nil_iff]
  rw [digitsLE_eq]
  exact Nat.digits_ne_nil_iff_ne_zero.mpr h

lemma foldr_ofDigits : ∀ l : List Nat, (∀ d ∈ l, d < 10) →
    l.foldr (fun d acc => 10 * acc + ((Nat.digitChar d).toNat - 48)) 0 = Nat.ofDigits 10 l := by
  intro l
  induction l with
  | nil => intro _; simp [Nat.ofDigits]
  | cons d l ih =>
    intro h
    have hd : d < 10 := h d (List.mem_cons_self d l)
    rw [List.foldr_cons, ih (fun x hx => h x (List.mem_cons_of_mem d hx)),
        (digitChar_facts d hd).2.1, Nat.ofDigits_cons]
    ring

lemma charsToNat_natToChars (n : Nat) : charsToNat (natToChars n) = n := by
  rw [charsToNat, natToChars, List.foldl_map, List.foldl_reverse]
  rw [foldr_ofDigits (digitsLE n)
    (by intro d hd; rw [digitsLE_eq] at hd; exact Nat.digits_lt_base (by norm_num) hd)]
  rw [digitsLE_eq]
  exact_mod_cast Nat.ofDigits_digits 10 n

/-! ### Strip, split, join -/

lemma dropWhile_all_false {p : Char → Bool} :
    ∀ {l : List Char}, (∀ c ∈ l, p c = false) → l.dropWhile p = l := by
  intro l h
  cases l with
  | nil => rfl
  | cons c t => simp [List.dropWhile_cons, h c (List.mem_cons_self c t)]

lemma pyStrip_all_false {l : List Char} (h : ∀ c ∈ l, isPySpace c = false) :
    pyStrip l = l := by
  unfold pyStrip
  rw [dropWhile_all_false h,
      dropWhile_all_false (by intro c hc; exact h c (List.mem_reverse.mp hc)),
      List.reverse_reverse]

lemma splitComma_ne_nil : ∀ t : List Char, splitComma t ≠ [] := by
  intro t
  induction t with
  | nil => simp [splitComma]
  | cons c r ih =>
    rw [splitComma]
    split
    · simp
    · match hr : splitComma r with
      | [] => exact absurd hr ih
      | t :: ts => simp [hr]

lemma splitComma_no_comma : ∀ {t : List Char}, (∀ c ∈ t, c ≠ ',') → splitComma t = [t] := by
  intro t
  induction t with
  | nil => intro _; rfl
  | cons c r ih =>
    intro h
    rw [splitComma, if_neg (h c (List.mem_cons_self c r))]
    rw [ih (fun x hx => h x (List.mem_cons_of_mem c hx))]

lemma splitComma_append : ∀ {t rest : List Char}, (∀ c ∈ t, c ≠ ',') →
    splitComma (t ++ ',' :: rest) = t :: splitComma rest := by
  intro t
  induction t with
  | nil =>
    intro rest _
    simp [splitComma]
  | cons c r ih =>
    intro rest h
    rw [List.cons_append, splitComma, if_neg (h c (List.mem_cons_self c r))]
    rw [ih (fun x hx => h x (List.mem_cons_of_mem c hx))]

lemma joinComma_cons₂ (t t' : List Char) (ts : List (List Char)) :
    joinComma (t :: t' :: ts) = t ++ ',' :: joinComma (t' :: ts) := rfl

lemma splitComma_join : ∀ parts : List (List Char), parts ≠ [] →
    (∀ t ∈ parts, ∀ c ∈ t, c ≠ ',') → splitComma (joinComma parts) = parts := by
  intro parts
  induction parts with
  | nil => intro h; exact absurd rfl h
  | cons t ts ih =>
    intro _ h
    cases ts with
    | nil =>
      rw [joinComma]
      exact splitComma_no_comma (h t (List.mem_cons_self t []))
    | cons t' ts' =>
      rw [joinComma_cons₂, splitComma_append (h t (List.mem_cons_self t _))]
      rw [ih (by simp) (fun u hu c hc => h u (List.mem_cons_of_mem t hu) c hc)]

lemma mem_joinComma : ∀ {parts : List (List Char)} {c : Char},
    c ∈ joinComma parts → c = ',' ∨ ∃ t ∈ parts, c ∈ t := by
  intro parts
  induction parts with
  | nil => intro c hc; simp [joinComma] at hc
  | cons t ts ih =>
    intro c hc
    cases ts with
    | nil =>
      rw [joinComma] at hc
      exact Or.inr ⟨t, List.mem_cons_self t [], hc⟩
    | cons t' ts' =>
      rw [joinComma_cons₂, List.mem_append, List.mem_cons] at hc
      rcases hc with h1 | h2 | h3
      · exact Or.inr ⟨t, List.mem_cons_self t _, h1⟩
      · exact Or.inl h2
      · rcases ih h3 with h | ⟨u, hu, hcu⟩
        · exact Or.inl h
        · exact Or.inr ⟨u, List.mem_cons_of_mem t hu, hcu⟩

lemma joinComma_ne_nil {parts : List (List Char)}
    (h : parts ≠ []) (hh : ∀ t ∈ parts, t ≠ []) : joinComma parts ≠ [] := by
  cases parts with
  | nil => exact absurd rfl h
  | cons t ts =>
    cases ts with
    | nil => exact hh t (List.mem_cons_self t [])
    | cons t' ts' =>
      rw [joinComma_cons₂]
      intro hc
      exact hh t (List.mem_cons_self t _) (List.append_eq_nil.mp hc).1

lemma takeWhile_all_cons {p : Char → Bool} :
    ∀ (l₁ : List Char) (x : Char) (l₂ : List Char), (∀ c ∈ l₁, p c = true) → p x = false →
    (l₁ ++ x :: l₂).takeWhile p = l₁ ∧ (l₁ ++ x :: l₂).dropWhile p = x :: l₂ := by
  intro l₁
  induction l₁ with
  | nil =>
    intro x l₂ _ hx
    simp [List.takeWhile_cons, List.dropWhile_cons, hx]
  | cons c r ih =>
    intro x l₂ h hx
    have hc : p c = true := h c (List.mem_cons_self c r)
    have := ih x l₂ (fun u hu => h u (List.mem_cons_of_mem c hu)) hx
    simp [List.takeWhile_cons, List.dropWhile_cons, hc, this.1, this.2]

/-! ### Sorting -/

lemma msortAsc_sorted (s : Multiset Nat) : List.Sorted (· ≤ ·) (msortAsc s) :=
  Quot.inductionOn s fun l => List.sorted_insertionSort _ l

lemma mem_msortAsc {s : Multiset Nat} {x : Nat} : x ∈ msortAsc s ↔ x ∈ s :=
  Quot.inductionOn s fun l => by
    show x ∈ List.insertionSort (· ≤ ·) l ↔ x ∈ (l : Multiset Nat)
    rw [Multiset.mem_coe]
    exact (List.perm_insertionSort (· ≤ ·) l).mem_iff

lemma msortAsc_nodup {s : Multiset Nat} (h : s.Nodup) : (msortAsc s).Nodup :=
  Quot.inductionOn s (fun l hl => (List.perm_insertionSort (· ≤ ·) l).nodup_iff.mpr hl) h

lemma sortFinset_sorted (S : Finset Nat) : List.Sorted (· ≤ ·) (sortFinset S) :=
  msortAsc_sorted S.val

lemma mem_sortFinset {S : Finset Nat} {x : Nat} : x ∈ sortFinset S ↔ x ∈ S :=
  mem_msortAsc

lemma sortFinset_nodup (S : Finset Nat) : (sortFinset S).Nodup :=
  msortAsc_nodup S.nodup

lemma sortFinset_sorted_lt (S : Finset Nat) : List.Sorted (· < ·) (sortFinset S) := by
  have h1 := sortFinset_sorted S
  have h2 := sortFinset_nodup S
  exact (List.Pairwise.and h1 h2).imp fun h => lt_of_le_of_ne h.1 h.2

lemma sortFinset_toFinset (S : Finset Nat) : (sortFinset S).toFinset = S := by
  ext x
  simp [List.mem_toFinset, mem_sortFinset]

/-! ### The token accumulation loop -/

lemma accumTokens_ok {M : Nat} : ∀ {ts : List (List Char)} {acc out : Finset Nat},
    accumTokens M ts acc = .ok out →
    (∀ t ∈ ts, classify M t = .ok (tokSet M t)) ∧
    out = acc ∪ ts.foldr (fun t u => tokSet M t ∪ u) ∅ := by
  intro ts
  induction ts with
  | nil =>
    intro acc out h
    rw [accumTokens] at h
    cases h
    exact ⟨by simp, by simp⟩
  | cons t ts ih =>
    intro acc out h
    rw [accumTokens] at h
    cases hc : classify M t with
    | error e => rw [hc] at h; cases h
    | ok c =>
      rw [hc] at h
      obtain ⟨hall, hout⟩ := ih h
      have htok : tokSet M t = c := by simp [tokSet, hc]
      constructor
      · intro u hu
        rcases List.mem_cons.mp hu with rfl | hu'
        · rw [hc, htok]
        · exact hall u hu'
      · rw [hout, List.foldr_cons, htok, Finset.union_assoc]

lemma accumTokens_all_ok {M : Nat} : ∀ {ts : List (List Char)} (acc : Finset Nat),
    (∀ t ∈ ts, ∃ c, classify M t = .ok c) →
    accumTokens M ts acc = .ok (acc ∪ ts.foldr (fun t u => tokSet M t ∪ u) ∅) := by
  intro ts
  induction ts with
  | nil => intro acc _; simp [accumTokens]
  | cons t ts ih =>
    intro acc h
    obtain ⟨c, hc⟩ := h t (List.mem_cons_self t ts)
    rw [accumTokens, hc]
    show accumTokens M ts (acc ∪ c) = _
    rw [ih (acc ∪ c) (fun u hu => h u (List.mem_cons_of_mem t hu))]
    have htok : tokSet M t = c := by simp [tokSet, hc]
    rw [List.foldr_cons, htok, Finset.union_assoc]

lemma accumTokens_error {M : Nat} : ∀ {ts : List (List Char)} {acc : Finset Nat} {e : PError},
    accumTokens M ts acc = .error e → ∃ t ∈ ts, classify M t = .error e := by
  intro ts
  induction ts with
  | nil => intro acc e h; rw [accumTokens] at h; cases h
  | cons t ts ih =>
    intro acc e h
    rw [accumTokens] at h
    cases hc : classify M t with
    | error e' =>
      rw [hc] at h
      cases h
      exact ⟨t, List.mem_cons_self t ts, hc⟩
    | ok c =>
      rw [hc] at h
      obtain ⟨u, hu, he⟩ := ih h
      exact ⟨u, List.mem_cons_of_mem t hu, he⟩

lemma accumTokens_error_iff {M : Nat} : ∀ {ts : List (List Char)} {acc : Finset Nat},
    (∃ e, accumTokens M ts acc = .error e) ↔ ∃ t ∈ ts, ∃ e, classify M t = .error e := by
  intro ts
  induction ts with
  | nil =>
    intro acc
    constructor
    · rintro ⟨e, h⟩; rw [accumTokens] at h; cases h
    · rintro ⟨t, ht, _⟩; simp at ht
  | cons t ts ih =>
    intro acc
    constructor
    · rintro ⟨e, h⟩
      rw [accumTokens] at h
      cases hc : classify M t with
      | error e' =>
        exact ⟨t, List.mem_cons_self t ts, e', hc⟩
      | ok c =>
        rw [hc] at h
        obtain ⟨u, hu, e'', he⟩ := ih.mp ⟨e, h⟩
        exact ⟨u, List.mem_cons_of_mem t hu, e'', he⟩
    · rintro ⟨u, hu, e, he⟩
      cases hc : classify M t with
      | error e0 => exact ⟨e0, by rw [accumTokens, hc]⟩
      | ok c =>
        have hu' : u ∈ ts := by
          rcases List.mem_cons.mp hu with rfl | h'
          · rw [hc] at he; cases he
          · exact h'
        obtain ⟨e', he'⟩ := (@ih (acc ∪ c)).mpr ⟨u, hu', e, he⟩
        refine ⟨e', ?_⟩
        rw [accumTokens, hc]
        exact he'

/-! ### Run coalescing -/

lemma runsGo_ne_nil : ∀ (rest : List Nat) (start prev : Nat), runsGo start prev rest ≠ [] := by
  intro rest
  induction rest with
  | nil => intro start prev; simp [runsGo]
  | cons q rest ih =>
    intro start prev
    rw [runsGo]
    split
    · exact ih start q
    · simp

lemma runsGo_starts : ∀ (rest : List Nat) (start prev : Nat),
    ∀ r ∈ runsGo start prev rest, r.1 = start ∨ r.1 ∈ rest := by
  intro rest
  induction rest with
  | nil =>
    intro start prev r hr
    rw [runsGo, List.mem_singleton] at hr
    subst hr
    exact Or.inl rfl
  | cons q rest ih =>
    intro start prev r hr
    rw [runsGo] at hr
    split at hr
    · rcases ih start q r hr with h | h
      · exact Or.inl h
      · exact Or.inr (List.mem_cons_of_mem q h)
    · rcases List.mem_cons.mp hr with rfl | h
      · exact Or.inl rfl
      · rcases ih q q r h with h' | h'
        · exact Or.inr (h' ▸ List.mem_cons_self q rest)
        · exact Or.inr (List.mem_cons_of_mem q h')

lemma runsGo_ends : ∀ (rest : List Nat) (start prev : Nat),
    ∀ r ∈ runsGo start prev rest, r.2 = prev ∨ r.2 ∈ rest := by
  intro rest
  induction rest with
  | nil =>
    intro start prev r hr
    rw [runsGo, List.mem_singleton] at hr
    subst hr
    exact Or.inl rfl
  | cons q rest ih =>
    intro start prev r hr
    rw [runsGo] at hr
    split at hr
    · rcases ih start q r hr with h | h
      · exact Or.inr (h ▸ List.mem_cons_self q rest)
      · exact Or.inr (List.mem_cons_of_mem q h)
    · rcases List.mem_cons.mp hr with rfl | h
      · exact Or.inl rfl
      · rcases ih q q r h with h' | h'
        · exact Or.inr (h' ▸ List.mem_cons_self q rest)
        · exact Or.inr (List.mem_cons_of_mem q h')

lemma runsGo_le : ∀ (rest : List Nat) (start prev : Nat), start ≤ prev →
    ∀ r ∈ runsGo start prev rest, r.1 ≤ r.2 := by
  intro rest
  induction rest with
  | nil =>
    intro start prev hsp r hr
    rw [runsGo, List.mem_singleton] at hr
    subst hr
    exact hsp
  | cons q rest ih =>
    intro start prev hsp r hr
    rw [runsGo] at hr
    split at hr
    · next hq => exact ih start q (by omega) r hr
    · rcases List.mem_cons.mp hr with rfl | h
      · exact hsp
      · exact ih q q le_rfl r h

lemma runsGo_cover : ∀ (rest : List Nat) (start prev : Nat), start ≤ prev →
    (runsGo start prev rest).foldr (fun r u => Finset.Icc r.1 r.2 ∪ u) ∅ =
      Finset.Icc start prev ∪ rest.toFinset := by
  intro rest
  induction rest with
  | nil =>
    intro start prev _
    rw [runsGo]
    simp
  | cons q rest ih =>
    intro start prev hsp
    rw [runsGo]
    split
    · next hq =>
      rw [ih start q (by omega)]
      ext x
      simp only [Finset.mem_union, Finset.mem_Icc, List.toFinset_cons, Finset.mem_insert,
        List.mem_toFinset]
      constructor
      · rintro (h | h)
        · by_cases hx : x ≤ prev
          · exact Or.inl ⟨h.1, hx⟩
          · exact Or.inr (Or.inl (by omega))
        · exact Or.inr (Or.inr h)
      · rintro (h | h | h)
        · exact Or.inl ⟨h.1, by omega⟩
        · exact Or.inl (by omega)
        · exact Or.inr h
    · rw [List.foldr_cons, ih q q le_rfl]
      ext x
      simp only [Finset.mem_union, Finset.mem_Icc, List.toFinset_cons, Finset.mem_insert,
        List.mem_toFinset]
      constructor
      · rintro (h | h | h)
        · exact Or.inl h
        · exact Or.inr (Or.inl (by omega))
        · exact Or.inr (Or.inr h)
      · rintro (h | h | h)
        · exact Or.inl h
        · exact Or.inr (Or.inl (by omega))
        · exact Or.inr (Or.inr h)

lemma runsGo_pairwise : ∀ (rest : List Nat) (start prev : Nat), start ≤ prev →
    List.Pairwise (· < ·) (prev :: rest) →
    List.Pairwise (fun r r' : Nat × Nat => r.2 + 1 < r'.1) (runsGo start prev rest) := by
  intro rest
  induction rest with
  | nil =>
    intro start prev _ _
    rw [runsGo]
    exact List.pairwise_singleton _ _
  | cons q rest ih =>
    intro start prev hsp hpw
    have hq' : prev < q := (List.pairwise_cons.mp hpw).1 q (List.mem_cons_self q rest)
    have hpw' : List.Pairwise (· < ·) (q :: rest) := (List.pairwise_cons.mp hpw).2
    rw [runsGo]
    split
    · next hq => exact ih start q (by omega) hpw'
    · next hq =>
      refine List.pairwise_cons.mpr ⟨?_, ih q q le_rfl hpw'⟩
      intro r hr
      have hgap : prev + 1 < q := by omega
      rcases runsGo_starts rest q q r hr with h | h
      · omega
      · have : q < r.1 := (List.pairwise_cons.mp hpw').1 r.1 h
        omega

lemma mem_foldr_Icc : ∀ (rs : List (Nat × Nat)) (n : Nat),
    n ∈ rs.foldr (fun r u => Finset.Icc r.1 r.2 ∪ u) ∅ ↔ ∃ r ∈ rs, r.1 ≤ n ∧ n ≤ r.2 := by
  intro rs n
  induction rs with
  | nil => simp
  | cons r rs ih =>
    simp only [List.foldr_cons, Finset.mem_union, Finset.mem_Icc, ih, List.mem_cons]
    constructor
    · rintro (h | ⟨u, hu, h⟩)
      · exact ⟨r, Or.inl rfl, h⟩
      · exact ⟨u, Or.inr hu, h⟩
    · rintro ⟨u, rfl | hu, h⟩
      · exact Or.inl h
      · exact Or.inr ⟨u, hu, h⟩

/-- The contribution of one emitted run to a re-parse: `range(a-1, b)`. -/
lemma Ico_pred_singleton {a : Nat} (h : 1 ≤ a) : Finset.Ico (a - 1) a = {a - 1} := by
  ext x
  simp only [Finset.mem_Ico, Finset.mem_singleton]
  omega

lemma emitRun_chars {a b : Nat} :
    ∀ c ∈ emitRun (a, b), (c.isDigit = true ∨ c = '-') ∧ isPySpace c = false ∧ c ≠ ',' := by
  intro c hc
  rw [emitRun] at hc
  split at hc
  · obtain ⟨hd, hs, hcm, _⟩ := natToChars_props a c hc
    exact ⟨Or.inl hd, hs, hcm⟩
  · rcases List.mem_append.mp hc with h | h
    · obtain ⟨hd, hs, hcm, _⟩ := natToChars_props a c h
      exact ⟨Or.inl hd, hs, hcm⟩
    · rcases List.mem_cons.mp h with rfl | h'
      · exact ⟨Or.inr rfl, by decide, by decide⟩
      · obtain ⟨hd, hs, hcm, _⟩ := natToChars_props b c h'
        exact ⟨Or.inl hd, hs, hcm⟩

lemma emitRun_ne_nil {a b : Nat} (h1 : 1 ≤ a) : emitRun (a, b) ≠ [] := by
  rw [emitRun]
  split
  · exact natToChars_ne_nil (by omega)
  · intro hc
    exact @natToChars_ne_nil a (by omega) (List.append_eq_nil.mp hc).1

lemma classify_emit {M a b : Nat} (h1 : 1 ≤ a) (h2 : a ≤ b) (h3 : b ≤ M) :
    classify M (emitRun (a, b)) = .ok (Finset.Ico (a - 1) b) := by
  by_cases hab : a = b
  · subst hab
    have hemit : emitRun (a, a) = natToChars a := by simp [emitRun]
    rw [hemit]
    have hstrip : pyStrip (natToChars a) = natToChars a :=
      pyStrip_all_false (fun c hc => (natToChars_props a c hc).2.1)
    rw [classify]
    simp only [hstrip]
    rw [if_neg (natToChars_ne_nil (by omega : a ≠ 0)),
        if_pos (List.all_eq_true.mpr (fun c hc => (natToChars_props a c hc).1)),
        charsToNat_natToChars, if_pos ⟨h1, h3⟩, Ico_pred_singleton h1]
  · have hemit : emitRun (a, b) = natToChars a ++ '-' :: natToChars b := by
      rw [emitRun, if_neg hab]
    have hb1 : 1 ≤ b := le_trans h1 h2
    rw [hemit]
    have hstrip : pyStrip (natToChars a ++ '-' :: natToChars b) =
        natToChars a ++ '-' :: natToChars b := by
      refine pyStrip_all_false ?_
      intro c hc
      rcases List.mem_append.mp hc with h | h
      · exact (natToChars_props a c h).2.1
      · rcases List.mem_cons.mp h with rfl | h'
        · decide
        · exact (natToChars_props b c h').2.1
    have htd := takeWhile_all_cons (natToChars a) '-' (natToChars b)
      (fun c hc => (natToChars_props a c hc).1) (by decide)
    have hnotall : ¬ ((natToChars a ++ '-' :: natToChars b).all Char.isDigit = true) := by
      intro hall
      have := List.all_eq_true.mp hall '-'
        (List.mem_append.mpr (Or.inr (List.mem_cons_self '-' _)))
      simp at this
    have hne : natToChars a ++ '-' :: natToChars b ≠ [] := by
      intro hc
      exact @natToChars_ne_nil a (by omega) (List.append_eq_nil.mp hc).1
    have hrm : rangeMatch (natToChars a ++ '-' :: natToChars b) = some (a, b) := by
      rw [rangeMatch]
      simp only [htd.1, htd.2]
      rw [if_neg (by simpa using @natToChars_ne_nil a (by omega))]
      rw [if_pos ⟨natToChars_ne_nil (by omega : b ≠ 0),
        List.all_eq_true.mpr (fun c hc => (natToChars_props b c hc).1)⟩]
      rw [charsToNat_natToChars, charsToNat_natToChars]
    rw [classify]
    simp only [hstrip]
    rw [if_neg hne, if_neg hnotall, hrm]
    show (if b < a then
        (Except.error (PError.inverted (natToChars a ++ '-' :: natToChars b)) :
          Except PError (Finset Nat))
      else if a < 1 ∨ M < b then
        Except.error (PError.rangeOut (natToChars a ++ '-' :: natToChars b) M)
      else Except.ok (Finset.Ico (a - 1) b)) = Except.ok (Finset.Ico (a - 1) b)
    rw [if_neg (by omega : ¬ b < a), if_neg (by omega : ¬ (a < 1 ∨ M < b))]

/-! ### Facts about the run list of a selected set -/

lemma sortFinset_eq_nil {S : Finset Nat} : sortFinset S = [] ↔ S = ∅ := by
  constructor
  · intro h
    ext x
    simp only [Finset.not_mem_empty, iff_false]
    intro hx
    have := mem_sortFinset.mpr hx
    rw [h] at this
    exact absurd this (List.not_mem_nil x)
  · intro h
    subst h
    rfl

lemma mem_onePlus {S : Finset Nat} {x : Nat} :
    x ∈ (sortFinset S).map (· + 1) ↔ ∃ m ∈ S, m + 1 = x := by
  simp [List.mem_map, mem_sortFinset]

lemma pageRuns_ne_nil {S : Finset Nat} (h : S ≠ ∅) : pageRuns S ≠ [] := by
  rw [pageRuns]
  cases hl : (sortFinset S).map (· + 1) with
  | nil =>
    exfalso
    exact h (sortFinset_eq_nil.mp (List.map_eq_nil_iff.mp hl))
  | cons p rest =>
    rw [runsOf]
    exact runsGo_ne_nil rest p p

lemma pageRuns_facts {S : Finset Nat} {N : Nat} (hS : ∀ i ∈ S, i < N) :
    ∀ r ∈ pageRuns S, 1 ≤ r.1 ∧ r.1 ≤ r.2 ∧ r.2 ≤ N := by
  intro r hr
  rw [pageRuns] at hr
  cases hl : (sortFinset S).map (· + 1) with
  | nil => rw [hl, runsOf] at hr; exact absurd hr (List.not_mem_nil r)
  | cons p rest =>
    rw [hl, runsOf] at hr
    have hmem : ∀ x ∈ p :: rest, 1 ≤ x ∧ x ≤ N := by
      intro x hx
      have : x ∈ (sortFinset S).map (· + 1) := hl ▸ hx
      obtain ⟨m, hm, rfl⟩ := mem_onePlus.mp this
      exact ⟨by omega, by have := hS m hm; omega⟩
    refine ⟨?_, runsGo_le rest p p le_rfl r hr, ?_⟩
    · rcases runsGo_starts rest p p r hr with h | h
      · exact h ▸ (hmem p (List.mem_cons_self p rest)).1
      · exact (hmem r.1 (List.mem_cons_of_mem p h)).1
    · rcases runsGo_ends rest p p r hr with h | h
      · exact h ▸ (hmem p (List.mem_cons_self p rest)).2
      · exact (hmem r.2 (List.mem_cons_of_mem p h)).2

lemma pageRuns_cover (S : Finset Nat) :
    ∀ n : Nat, (∃ r ∈ pageRuns S, r.1 ≤ n + 1 ∧ n + 1 ≤ r.2) ↔ n ∈ S := by
  intro n
  rw [pageRuns]
  cases hl : (sortFinset S).map (· + 1) with
  | nil =>
    rw [runsOf]
    simp only [List.not_mem_nil, false_and, exists_false, exists_prop, false_iff]
    intro hn
    have : n + 1 ∈ (sortFinset S).map (· + 1) := mem_onePlus.mpr ⟨n, hn, rfl⟩
    rw [hl] at this
    exact absurd this (List.not_mem_nil _)
  | cons p rest =>
    rw [runsOf]
    have hcov := runsGo_cover rest p p le_rfl
    have hmem := mem_foldr_Icc (runsGo p p rest) (n + 1)
    rw [hcov] at hmem
    rw [← hmem]
    have : Finset.Icc p p ∪ rest.toFinset = (p :: rest).toFinset := by
      rw [Finset.Icc_self, List.toFinset_cons]
      ext x
      simp
    rw [this]
    rw [List.mem_toFinset, ← hl, mem_onePlus]
    constructor
    · rintro ⟨m, hm, he⟩
      have : m = n := by omega
      exact this ▸ hm
    · intro hn
      exact ⟨n, hn, rfl⟩

lemma pageRuns_pairwise (S : Finset Nat) :
    List.Pairwise (fun r r' : Nat × Nat => r.2 + 1 < r'.1) (pageRuns S) := by
  rw [pageRuns]
  have hsort : List.Pairwise (· < ·) ((sortFinset S).map (· + 1)) := by
    rw [List.pairwise_map]
    exact (sortFinset_sorted_lt S).imp (by omega)
  cases hl : (sortFinset S).map (· + 1) with
  | nil => rw [runsOf]; exact List.Pairwise.nil
  | cons p rest =>
    rw [runsOf]
    exact runsGo_pairwise rest p p le_rfl (hl ▸ hsort)

lemma pageRuns_le (S : Finset Nat) : ∀ r ∈ pageRuns S, r.1 ≤ r.2 := by
  intro r hr
  rw [pageRuns] at hr
  cases hl : (sortFinset S).map (· + 1) with
  | nil => rw [hl, runsOf] at hr; exact absurd hr (List.not_mem_nil r)
  | cons p rest =>
    rw [hl, runsOf] at hr
    exact runsGo_le rest p p le_rfl r hr

lemma pageRuns_pos (S : Finset Nat) : ∀ r ∈ pageRuns S, 1 ≤ r.1 := by
  intro r hr
  rw [pageRuns] at hr
  cases hl : (sortFinset S).map (· + 1) with
  | nil => rw [hl, runsOf] at hr; exact absurd hr (List.not_mem_nil r)
  | cons p rest =>
    rw [hl, runsOf] at hr
    have hmem : ∀ x ∈ p :: rest, 1 ≤ x := by
      intro x hx
      obtain ⟨m, _, rfl⟩ := mem_onePlus.mp (hl ▸ hx)
      omega
    rcases runsGo_starts rest p p r hr with h | h
    · exact h ▸ hmem p (List.mem_cons_self p rest)
    · exact hmem r.1 (List.mem_cons_of_mem p h)

/-! ### Round trip: parsing a serialized selection -/

lemma tokSet_fold {M : Nat} : ∀ (rs : List (Nat × Nat)),
    (∀ r ∈ rs, classify M (emitRun r) = .ok (Finset.Ico (r.1 - 1) r.2)) →
    (rs.map emitRun).foldr (fun t u => tokSet M t ∪ u) ∅ =
      rs.foldr (fun r u => Finset.Ico (r.1 - 1) r.2 ∪ u) ∅ := by
  intro rs
  induction rs with
  | nil => intro _; rfl
  | cons r rs ih =>
    intro h
    rw [List.map_cons, List.foldr_cons, List.foldr_cons,
        ih (fun u hu => h u (List.mem_cons_of_mem r hu))]
    have : tokSet M (emitRun r) = Finset.Ico (r.1 - 1) r.2 := by
      simp [tokSet, h r (List.mem_cons_self r rs)]
    rw [this]

lemma mem_foldr_Ico : ∀ (rs : List (Nat × Nat)) (n : Nat),
    n ∈ rs.foldr (fun r u => Finset.Ico (r.1 - 1) r.2 ∪ u) ∅ ↔
      ∃ r ∈ rs, r.1 ≤ n + 1 ∧ n + 1 ≤ r.2 := by
  intro rs n
  induction rs with
  | nil => simp
  | cons r rs ih =>
    simp only [List.foldr_cons, Finset.mem_union, Finset.mem_Ico, ih, List.mem_cons]
    constructor
    · rintro (h | ⟨u, hu, h⟩)
      · exact ⟨r, Or.inl rfl, by omega⟩
      · exact ⟨u, Or.inr hu, h⟩
    · rintro ⟨u, rfl | hu, h⟩
      · exact Or.inl (by omega)
      · exact Or.inr ⟨u, hu, h⟩

/-- Re-parsing a serialized nonempty selection against any bound every
selected index respects succeeds and recovers exactly the selection. -/
theorem parse_serializePages {N : Nat} {S : Finset Nat} (hS : ∀ i ∈ S, i < N) :
    parse_pages (serializePages S) N = .ok (sortFinset S) := by
  by_cases hemp : S = ∅
  · subst hemp
    rfl
  · have hruns := pageRuns_facts hS
    have hclass : ∀ r ∈ pageRuns S, classify N (emitRun r) = .ok (Finset.Ico (r.1 - 1) r.2) :=
      fun r hr => classify_emit (hruns r hr).1 (hruns r hr).2.1 (hruns r hr).2.2
    have htokne : ∀ t ∈ (pageRuns S).map emitRun, t ≠ [] := by
      intro t ht
      obtain ⟨r, hr, rfl⟩ := List.mem_map.mp ht
      exact emitRun_ne_nil (hruns r hr).1
    have htokcomma : ∀ t ∈ (pageRuns S).map emitRun, ∀ c ∈ t, c ≠ ',' := by
      intro t ht c hc
      obtain ⟨r, hr, rfl⟩ := List.mem_map.mp ht
      exact (emitRun_chars c hc).2.2
    have hmapne : (pageRuns S).map emitRun ≠ [] := by
      intro h
      exact pageRuns_ne_nil hemp (List.map_eq_nil_iff.mp h)
    have hjoin_ne : joinComma ((pageRuns S).map emitRun) ≠ [] :=
      joinComma_ne_nil hmapne htokne
    have hstrip : pyStrip (joinComma ((pageRuns S).map emitRun)) =
        joinComma ((pageRuns S).map emitRun) := by
      refine pyStrip_all_false ?_
      intro c hc
      rcases mem_joinComma hc with rfl | ⟨t, ht, hct⟩
      · decide
      · obtain ⟨r, hr, rfl⟩ := List.mem_map.mp ht
        exact (emitRun_chars c hct).2.1
    rw [serializePages, if_neg hemp, parse_pages]
    simp only [hstrip]
    rw [if_neg hjoin_ne, splitComma_join _ hmapne htokcomma]
    rw [accumTokens_all_ok ∅ (fun t ht => by
      obtain ⟨r, hr, rfl⟩ := List.mem_map.mp ht
      exact ⟨_, hclass r hr⟩)]
    have hU : (∅ : Finset Nat) ∪
        ((pageRuns S).map emitRun).foldr (fun t u => tokSet N t ∪ u) ∅ = S := by
      rw [Finset.empty_union, tokSet_fold _ hclass]
      ext n
      rw [mem_foldr_Ico]
      exact pageRuns_cover S n
    rw [hU]

/-! ### Canonicity and uniqueness of the coalesced run form -/

lemma pageRuns_canonical (S : Finset Nat) : canonicalRuns (pageRuns S) S :=
  ⟨fun r hr => ⟨pageRuns_pos S r hr, pageRuns_le S r hr⟩,
   pageRuns_pairwise S, pageRuns_cover S⟩

lemma canonical_no_cover_nil {r' : Nat × Nat} {tl' : List (Nat × Nat)} {S : Finset Nat}
    (hnil : canonicalRuns [] S) (hcons : canonicalRuns (r' :: tl') S) : False := by
  obtain ⟨hb', _, hcov'⟩ := hcons
  have h1 : 1 ≤ r'.1 := (hb' r' (List.mem_cons_self r' tl')).1
  have h2 : r'.1 ≤ r'.2 := (hb' r' (List.mem_cons_self r' tl')).2
  have hmem : (r'.1 - 1) ∈ S :=
    (hcov' (r'.1 - 1)).mp ⟨r', List.mem_cons_self r' tl', by omega, by omega⟩
  obtain ⟨u, hu, _⟩ := (hnil.2.2 (r'.1 - 1)).mpr hmem
  exact absurd hu (List.not_mem_nil u)

lemma canonical_unique : ∀ (rs rs' : List (Nat × Nat)) (S : Finset Nat),
    canonicalRuns rs S → canonicalRuns rs' S → rs = rs' := by
  intro rs
  induction rs with
  | nil =>
    intro rs' S h h'
    cases rs' with
    | nil => rfl
    | cons r' tl' => exact absurd (canonical_no_cover_nil h h') id
  | cons r tl ih =>
    intro rs' S h h'
    cases rs' with
    | nil => exact absurd (canonical_no_cover_nil h' h) id
    | cons r' tl' =>
      obtain ⟨hb, hpw, hcov⟩ := h
      obtain ⟨hb', hpw', hcov'⟩ := h'
      have ha1 : 1 ≤ r.1 := (hb r (List.mem_cons_self r tl)).1
      have hab : r.1 ≤ r.2 := (hb r (List.mem_cons_self r tl)).2
      have ha1' : 1 ≤ r'.1 := (hb' r' (List.mem_cons_self r' tl')).1
      have hab' : r'.1 ≤ r'.2 := (hb' r' (List.mem_cons_self r' tl')).2
      have hmemS : r.1 - 1 ∈ S :=
        (hcov (r.1 - 1)).mp ⟨r, List.mem_cons_self r tl, by omega, by omega⟩
      have hmemS' : r'.1 - 1 ∈ S :=
        (hcov' (r'.1 - 1)).mp ⟨r', List.mem_cons_self r' tl', by omega, by omega⟩
      have hlb : ∀ n, n ∈ S → r.1 ≤ n + 1 := by
        intro n hn
        obtain ⟨u, hu, h1, h2⟩ := (hcov n).mpr hn
        rcases List.mem_cons.mp hu with rfl | hu'
        · omega
        · have hgap : r.2 + 1 < u.1 := (List.pairwise_cons.mp hpw).1 u hu'
          omega
      have hlb' : ∀ n, n ∈ S → r'.1 ≤ n + 1 := by
        intro n hn
        obtain ⟨u, hu, h1, h2⟩ := (hcov' n).mpr hn
        rcases List.mem_cons.mp hu with rfl | hu'
        · omega
        · have hgap : r'.2 + 1 < u.1 := (List.pairwise_cons.mp hpw').1 u hu'
          omega
      have ha : r.1 = r'.1 := by
        have h1 := hlb (r'.1 - 1) hmemS'
        have h2 := hlb' (r.1 - 1) hmemS
        omega
      have hnb : r.2 ∉ S := by
        intro hc
        obtain ⟨u, hu, h1, h2⟩ := (hcov r.2).mpr hc
        rcases List.mem_cons.mp hu with rfl | hu'
        · omega
        · have hgap : r.2 + 1 < u.1 := (List.pairwise_cons.mp hpw).1 u hu'
          omega
      have hnb' : r'.2 ∉ S := by
        intro hc
        obtain ⟨u, hu, h1, h2⟩ := (hcov' r'.2).mpr hc
        rcases List.mem_cons.mp hu with rfl | hu'
        · omega
        · have hgap : r'.2 + 1 < u.1 := (List.pairwise_cons.mp hpw').1 u hu'
          omega
      have hint : ∀ m, r.1 ≤ m + 1 → m + 1 ≤ r.2 → m ∈ S :=
        fun m h1 h2 => (hcov m).mp ⟨r, List.mem_cons_self r tl, h1, h2⟩
      have hint' : ∀ m, r'.1 ≤ m + 1 → m + 1 ≤ r'.2 → m ∈ S :=
        fun m h1 h2 => (hcov' m).mp ⟨r', List.mem_cons_self r' tl', h1, h2⟩
      have hbb : r.2 = r'.2 := by
        by_contra hne
        rcases Nat.lt_or_ge r.2 r'.2 with hlt | hge
        · exact hnb (hint' r.2 (by omega) (by omega))
        · exact hnb' (hint r'.2 (by omega) (by omega))
      have hrr : r = r' := Prod.ext_iff.mpr ⟨ha, hbb⟩
      have htl : canonicalRuns tl (S.filter (fun n => r.2 + 1 ≤ n)) := by
        refine ⟨fun u hu => hb u (List.mem_cons_of_mem r hu),
                (List.pairwise_cons.mp hpw).2, ?_⟩
        intro n
        constructor
        · rintro ⟨u, hu, h1, h2⟩
          have hnS : n ∈ S := (hcov n).mp ⟨u, List.mem_cons_of_mem r hu, h1, h2⟩
          have hgap : r.2 + 1 < u.1 := (List.pairwise_cons.mp hpw).1 u hu
          exact Finset.mem_filter.mpr ⟨hnS, by omega⟩
        · intro hn
          obtain ⟨hnS, hge⟩ := Finset.mem_filter.mp hn
          obtain ⟨u, hu, h1, h2⟩ := (hcov n).mpr hnS
          rcases List.mem_cons.mp hu with rfl | hu'
          · omega
          · exact ⟨u, hu', h1, h2⟩
      have htl' : canonicalRuns tl' (S.filter (fun n => r.2 + 1 ≤ n)) := by
        refine ⟨fun u hu => hb' u (List.mem_cons_of_mem r' hu),
                (List.pairwise_cons.mp hpw').2, ?_⟩
        intro n
        constructor
        · rintro ⟨u, hu, h1, h2⟩
          have hnS : n ∈ S := (hcov' n).mp ⟨u, List.mem_cons_of_mem r' hu, h1, h2⟩
          have hgap : r'.2 + 1 < u.1 := (List.pairwise_cons.mp hpw').1 u hu
          exact Finset.mem_filter.mpr ⟨hnS, by omega⟩
        · intro hn
          obtain ⟨hnS, hge⟩ := Finset.mem_filter.mp hn
          obtain ⟨u, hu, h1, h2⟩ := (hcov' n).mpr hnS
          rcases List.mem_cons.mp hu with rfl | hu'
          · omega
          · exact ⟨u, hu', h1, h2⟩
      rw [hrr, ih tl' (S.filter (fun n => r.2 + 1 ≤ n)) htl htl']

/-! ### Bounds on parsed indices -/

lemma classify_ok_lt {M : Nat} {t : List Char} {c : Finset Nat}
    (h : classify M t = .ok c) : ∀ x ∈ c, x < M := by
  rw [classify] at h
  by_cases h0 : pyStrip t = []
  · rw [if_pos h0] at h
    injection h with h'
    subst h'
    intro x hx
    exact absurd hx (Finset.not_mem_empty x)
  · rw [if_neg h0] at h
    by_cases h1 : (pyStrip t).all Char.isDigit = true
    · rw [if_pos h1] at h
      by_cases h2 : 1 ≤ charsToNat (pyStrip t) ∧ charsToNat (pyStrip t) ≤ M
      · rw [if_pos h2] at h
        injection h with h'
        subst h'
        intro x hx
        rw [Finset.mem_singleton] at hx
        omega
      · rw [if_neg h2] at h
        cases h
    · rw [if_neg h1] at h
      cases hrm : rangeMatch (pyStrip t) with
      | none => rw [hrm] at h; cases h
      | some ab =>
        obtain ⟨a, b⟩ := ab
        rw [hrm] at h
        have h' : (if b < a then (Except.error (PError.inverted (pyStrip t)) :
              Except PError (Finset Nat))
            else if a < 1 ∨ M < b then Except.error (PError.rangeOut (pyStrip t) M)
            else Except.ok (Finset.Ico (a - 1) b)) = Except.ok c := h
        by_cases hba : b < a
        · rw [if_pos hba] at h'; cases h'
        · rw [if_neg hba] at h'
          by_cases hout : a < 1 ∨ M < b
          · rw [if_pos hout] at h'; cases h'
          · rw [if_neg hout] at h'
            injection h' with h''
            subst h''
            intro x hx
            rw [Finset.mem_Ico] at hx
            omega

lemma mem_foldr_tokSet {M : Nat} : ∀ {ts : List (List Char)} {x : Nat},
    x ∈ ts.foldr (fun t u => tokSet M t ∪ u) ∅ → ∃ t ∈ ts, x ∈ tokSet M t := by
  intro ts
  induction ts with
  | nil => intro x hx; exact absurd hx (Finset.not_mem_empty x)
  | cons t ts ih =>
    intro x hx
    rw [List.foldr_cons, Finset.mem_union] at hx
    rcases hx with h | h
    · exact ⟨t, List.mem_cons_self t ts, h⟩
    · obtain ⟨u, hu, hxu⟩ := ih h
      exact ⟨u, List.mem_cons_of_mem t hu, hxu⟩

lemma parse_pages_lt {v : List Char} {M : Nat} {l : List Nat}
    (h : parse_pages v M = .ok l) : ∀ x ∈ l, x < M := by
  rw [parse_pages] at h
  by_cases hs : pyStrip v = []
  · rw [if_pos hs] at h
    injection h with h'
    subst h'
    intro x hx
    exact absurd hx (List.not_mem_nil x)
  · rw [if_neg hs] at h
    cases hacc : accumTokens M (splitComma (pyStrip v)) ∅ with
    | error e => rw [hacc] at h; cases h
    | ok pages =>
      rw [hacc] at h
      injection h with h'
      subst h'
      intro x hx
      rw [mem_sortFinset] at hx
      obtain ⟨hall, hout⟩ := accumTokens_ok hacc
      rw [hout, Finset.empty_union] at hx
      obtain ⟨t, ht, hxt⟩ := mem_foldr_tokSet hx
      exact classify_ok_lt (hall t ht) x hxt

/-! ### Error characterization of a single token -/

lemma classify_error_iff {M : Nat} {t : List Char} {e : PError} :
    classify M t = .error e ↔
      ((pyStrip t ≠ [] ∧ (pyStrip t).all Char.isDigit = true ∧
        (charsToNat (pyStrip t) < 1 ∨ M < charsToNat (pyStrip t)) ∧
        e = PError.pageOut (charsToNat (pyStrip t)) M) ∨
       ((pyStrip t).all Char.isDigit = false ∧ (∃ a b : Nat, rangeMatch (pyStrip t) = some (a, b) ∧
         ((b < a ∧ e = PError.inverted (pyStrip t)) ∨
          (a ≤ b ∧ (a < 1 ∨ M < b) ∧ e = PError.rangeOut (pyStrip t) M)))) ∨
       ((pyStrip t).all Char.isDigit = false ∧ rangeMatch (pyStrip t) = none ∧
        e = PError.badFormat (pyStrip t))) := by
  rw [classify]
  by_cases h0 : pyStrip t = []
  · rw [if_pos h0]
    constructor
    · intro h; cases h
    · rintro (⟨hne, _⟩ | ⟨hall, _⟩ | ⟨hall, _⟩)
      · exact absurd h0 hne
      · rw [h0] at hall; simp at hall
      · rw [h0] at hall; simp at hall
  · rw [if_neg h0]
    by_cases h1 : (pyStrip t).all Char.isDigit = true
    · rw [if_pos h1]
      by_cases h2 : 1 ≤ charsToNat (pyStrip t) ∧ charsToNat (pyStrip t) ≤ M
      · rw [if_pos h2]
        constructor
        · intro h; cases h
        · rintro (⟨_, _, hc, _⟩ | ⟨hall, _⟩ | ⟨hall, _⟩)
          · omega
          · rw [h1] at hall; cases hall
          · rw [h1] at hall; cases hall
      · rw [if_neg h2]
        constructor
        · intro h
          injection h with h'
          exact Or.inl ⟨h0, h1, by omega, h'.symm⟩
        · rintro (⟨_, _, _, he⟩ | ⟨hall, _⟩ | ⟨hall, _⟩)
          · rw [he]
          · rw [h1] at hall; cases hall
          · rw [h1] at hall; cases hall
    · have h1' : (pyStrip t).all Char.isDigit = false := by
        revert h1; cases (pyStrip t).all Char.isDigit <;> simp
      rw [if_neg h1]
      cases hrm : rangeMatch (pyStrip t) with
      | none =>
        constructor
        · intro h
          injection h with h'
          exact Or.inr (Or.inr ⟨h1', rfl, h'.symm⟩)
        · rintro (⟨_, hall, _⟩ | ⟨_, a, b, hab, _⟩ | ⟨_, _, he⟩)
          · rw [hall] at h1'; cases h1'
          · cases hab
          · rw [he]
      | some ab =>
        obtain ⟨a, b⟩ := ab
        show (if b < a then (Except.error (PError.inverted (pyStrip t)) :
              Except PError (Finset Nat))
            else if a < 1 ∨ M < b then Except.error (PError.rangeOut (pyStrip t) M)
            else Except.ok (Finset.Ico (a - 1) b)) = Except.error e ↔ _
        by_cases hba : b < a
        · rw [if_pos hba]
          constructor
          · intro h
            injection h with h'
            exact Or.inr (Or.inl ⟨h1', a, b, rfl, Or.inl ⟨hba, h'.symm⟩⟩)
          · rintro (⟨_, hall, _⟩ | ⟨_, a', b', hab', hcase⟩ | ⟨_, hnone, _⟩)
            · rw [hall] at h1'; cases h1'
            · injection hab' with h2
              injection h2 with ha hb
              subst ha
              subst hb
              rcases hcase with ⟨_, he⟩ | ⟨hle, _, _⟩
              · rw [he]
              · omega
            · cases hnone
        · rw [if_neg hba]
          by_cases hout : a < 1 ∨ M < b
          · rw [if_pos hout]
            constructor
            · intro h
              injection h with h'
              exact Or.inr (Or.inl ⟨h1', a, b, rfl, Or.inr ⟨by omega, hout, h'.symm⟩⟩)
            · rintro (⟨_, hall, _⟩ | ⟨_, a', b', hab', hcase⟩ | ⟨_, hnone, _⟩)
              · rw [hall] at h1'; cases h1'
              · injection hab' with h2
                injection h2 with ha hb
                subst ha
                subst hb
                rcases hcase with ⟨hba', _⟩ | ⟨_, _, he⟩
                · omega
                · rw [he]
              · cases hnone
          · rw [if_neg hout]
            constructor
            · intro h; cases h
            · rintro (⟨_, hall, _⟩ | ⟨_, a', b', hab', hcase⟩ | ⟨_, hnone, _⟩)
              · rw [hall] at h1'; cases h1'
              · injection hab' with h2
                injection h2 with ha hb
                subst ha
                subst hb
                rcases hcase with ⟨hba', _⟩ | ⟨_, hout', _⟩
                · omega
                · omega
              · cases hnone

/-! ## Claims -/

/-- Claim C1: for every spec string and every `maxPage ≥ 0`, `parse_pages`
splits the spec on commas, strips each token, skips empty tokens, and
accumulates each valid token's 0-based contribution (`n-1` for a single
number, `a-1 .. b-1` for a range) into a set, duplicates collapsing
silently; the result is that set as an ascending sequence.  In particular
`parse("1,3-5", 5) = [0,2,3,4]` and `parse("2,2,1-3", 5) = [0,1,2]`. -/
theorem claim_C1 :
    (∀ (spec : List Char) (M : Nat) (l : List Nat), parse_pages spec M = .ok l →
      (∀ t ∈ splitComma (pyStrip spec), classify M t = .ok (tokSet M t)) ∧
      l = sortFinset ((splitComma (pyStrip spec)).foldr (fun t u => tokSet M t ∪ u) ∅)) ∧
    parse_pages ("1,3-5").data 5 = .ok [0, 2, 3, 4] ∧
    parse_pages ("2,2,1-3").data 5 = .ok [0, 1, 2] := by
  refine ⟨?_, by decide, by decide⟩
  intro spec M l h
  rw [parse_pages] at h
  by_cases hs : pyStrip spec = []
  · rw [if_pos hs] at h
    injection h with h'
    subst h'
    rw [hs]
    constructor
    · intro t ht
      rw [show splitComma ([] : List Char) = [[]] from rfl, List.mem_singleton] at ht
      subst ht
      rfl
    · rfl
  · rw [if_neg hs] at h
    cases hacc : accumTokens M (splitComma (pyStrip spec)) ∅ with
    | error e => rw [hacc] at h; cases h
    | ok pages =>
      rw [hacc] at h
      injection h with h'
      subst h'
      obtain ⟨hall, hout⟩ := accumTokens_ok hacc
      exact ⟨hall, by rw [hout, Finset.empty_union]⟩

/-- Claim C1 witness: the characterization evaluated at `"1,3-5"`, `maxPage = 5`. -/
theorem claim_C1_witness :
    [0, 2, 3, 4] = sortFinset ((splitComma (pyStrip (("1,3-5").data))).foldr
      (fun t u => tokSet 5 t ∪ u) ∅) :=
  (claim_C1.1 (("1,3-5").data) 5 [0, 2, 3, 4] (by decide)).2

/-- Claim C2: `parse_pages` fails exactly when some token is invalid: an
all-digit token with value `n` raises the range error `pageOut` iff `n < 1`
or `n > maxPage`; a range token `a-b` raises `inverted` iff `a > b` and
`rangeOut` iff `a ≤ b` and (`a < 1` or `b > maxPage`); a non-empty token
matching neither grammar raises the format error `badFormat`; and no other
input makes it fail (the error returned is that of a failing token). -/
theorem claim_C2 : ∀ (spec : List Char) (M : Nat),
    ((∃ e, parse_pages spec M = .error e) ↔
      ∃ t ∈ splitComma (pyStrip spec), ∃ e, classify M t = .error e) ∧
    (∀ e, parse_pages spec M = .error e →
      ∃ t ∈ splitComma (pyStrip spec), classify M t = .error e) ∧
    (∀ (t : List Char) (e : PError), classify M t = .error e ↔
      ((pyStrip t ≠ [] ∧ (pyStrip t).all Char.isDigit = true ∧
        (charsToNat (pyStrip t) < 1 ∨ M < charsToNat (pyStrip t)) ∧
        e = PError.pageOut (charsToNat (pyStrip t)) M) ∨
       ((pyStrip t).all Char.isDigit = false ∧
        (∃ a b : Nat, rangeMatch (pyStrip t) = some (a, b) ∧
         ((b < a ∧ e = PError.inverted (pyStrip t)) ∨
          (a ≤ b ∧ (a < 1 ∨ M < b) ∧ e = PError.rangeOut (pyStrip t) M)))) ∨
       ((pyStrip t).all Char.isDigit = false ∧ rangeMatch (pyStrip t) = none ∧
        e = PError.badFormat (pyStrip t)))) := by
  intro spec M
  refine ⟨?_, ?_, fun t e => classify_error_iff⟩
  · rw [parse_pages]
    by_cases hs : pyStrip spec = []
    · rw [if_pos hs]
      constructor
      · rintro ⟨e, h⟩
        cases h
      · rintro ⟨t, ht, e, he⟩
        rw [hs, show splitComma ([] : List Char) = [[]] from rfl, List.mem_singleton] at ht
        subst ht
        have : classify M ([] : List Char) = .ok ∅ := rfl
        rw [this] at he
        cases he
    · rw [if_neg hs]
      cases hacc : accumTokens M (splitComma (pyStrip spec)) ∅ with
      | error e =>
        constructor
        · intro _
          exact accumTokens_error_iff.mp ⟨e, hacc⟩
        · intro _
          exact ⟨e, rfl⟩
      | ok pages =>
        constructor
        · rintro ⟨e, h⟩
          cases h
        · intro hbad
          obtain ⟨e', he'⟩ := accumTokens_error_iff.mpr hbad
          rw [hacc] at he'
          cases he'
  · intro e h
    rw [parse_pages] at h
    by_cases hs : pyStrip spec = []
    · rw [if_pos hs] at h
      cases h
    · rw [if_neg hs] at h
      cases hacc : accumTokens M (splitComma (pyStrip spec)) ∅ with
      | error e' =>
        rw [hacc] at h
        injection h with h'
        subst h'
        exact accumTokens_error hacc
      | ok pages =>
        rw [hacc] at h
        cases h

/-- Claim C2 witness: `parse("0", 5)` fails, and the error is the range
error of the token `"0"`. -/
theorem claim_C2_witness :
    ∃ t ∈ splitComma (pyStrip (("0").data)), classify 5 t = .error (PError.pageOut 0 5) :=
  (claim_C2 (("0").data) 5).2.1 (PError.pageOut 0 5) (by decide)

/-- Claim C3: the serializer produces the unique minimal canonical form:
the empty set yields the empty string, and otherwise the emitted run list is
the unique canonical (ascending, 1-based, maximally coalesced) run
decomposition of the selection, rendered as `"a"` or `"a-b"` tokens joined
by commas.  In particular `serialize({0,1,2,4,6,7}) = "1-3,5,7-8"` and
`serialize({0,1,2,4}) = "1-3,5"` (never the uncoalesced `"1,2,3,5"`). -/
theorem claim_C3 :
    serializePages ∅ = [] ∧
    (∀ S : Finset Nat, S ≠ ∅ →
      canonicalRuns (pageRuns S) S ∧
      (∀ rs, canonicalRuns rs S → rs = pageRuns S) ∧
      serializePages S = joinComma ((pageRuns S).map emitRun)) ∧
    serializePages {0, 1, 2, 4, 6, 7} = ("1-3,5,7-8").data ∧
    serializePages {0, 1, 2, 4} = ("1-3,5").data := by
  refine ⟨rfl, ?_, by decide, by decide⟩
  intro S hS
  exact ⟨pageRuns_canonical S,
    fun rs hrs => canonical_unique rs (pageRuns S) S hrs (pageRuns_canonical S),
    by rw [serializePages, if_neg hS]⟩

/-- Claim C3 witness: uniqueness and the rendering evaluated at
`{0,1,2,4,6,7}`. -/
theorem claim_C3_witness :
    serializePages {0, 1, 2, 4, 6, 7} =
      joinComma ((pageRuns {0, 1, 2, 4, 6, 7}).map emitRun) :=
  (claim_C3.2.1 {0, 1, 2, 4, 6, 7} (by decide)).2.2

/-- Claim C4: round trip — for every `N ≥ 0` and every selection `S` with
all indices in `[0, N)`, parsing the serialized form succeeds and returns
the ascending enumeration of `S`; viewed as a set it equals `S`, so
re-serializing the parse result is byte-identical to the original
serialization. -/
theorem claim_C4 (N : Nat) (S : Finset Nat) (hS : ∀ i ∈ S, i < N) :
    parse_pages (serializePages S) N = .ok (sortFinset S) ∧
    (sortFinset S).toFinset = S ∧
    serializePages ((sortFinset S).toFinset) = serializePages S :=
  ⟨parse_serializePages hS, sortFinset_toFinset S, by rw [sortFinset_toFinset S]⟩

/-- Claim C4 witness: the round trip evaluated at `S = {0, 2, 3}`, `N = 5`. -/
theorem claim_C4_witness :
    parse_pages (serializePages {0, 2, 3}) 5 = .ok (sortFinset {0, 2, 3}) ∧
    (sortFinset ({0, 2, 3} : Finset Nat)).toFinset = {0, 2, 3} ∧
    serializePages ((sortFinset ({0, 2, 3} : Finset Nat)).toFinset) =
      serializePages {0, 2, 3} :=
  claim_C4 5 {0, 2, 3} (by decide)

/-- Claim C5: replacing the selection from the spec field is atomic on
failure — whenever `parse_pages` fails on the field text (with the
thumbnail count as bound), `on_page_spec_change` returns the state
unchanged, and the error is swallowed at this boundary rather than
propagated (the transition is total). -/
theorem claim_C5 (st : AppState) (v : List Char) (e : PError)
    (h : parse_pages v st.thumbs = .error e) : on_page_spec_change st v = st := by
  rw [on_page_spec_change]
  by_cases hg : st.thumbs = 0 ∨ pyStrip v = []
  · rw [if_pos hg]
  · rw [if_neg hg, h]

/-- Claim C5 witness: a malformed edit (`"abc"`) leaves a selection of
`{0}` with three thumbnails untouched. -/
theorem claim_C5_witness :
    on_page_spec_change (AppState.mk ({0} : Finset Int) (-1) 3 3) (("abc").data) =
      AppState.mk ({0} : Finset Int) (-1) 3 3 :=
  claim_C5 (AppState.mk ({0} : Finset Int) (-1) 3 3) (("abc").data)
    (PError.badFormat (("abc").data)) (by decide)

/-! ### Reachability invariant -/

lemma toggle_selected_cases {p i : Int} {st : AppState}
    (h : i ∈ (toggle_single_page p st).selected) : i = p - 1 ∨ i ∈ st.selected := by
  rw [toggle_single_page] at h
  by_cases hm : p - 1 ∈ st.selected
  · rw [if_pos hm] at h
    exact Or.inr (Finset.mem_of_mem_erase h)
  · rw [if_neg hm] at h
    rcases Finset.mem_insert.mp h with h' | h'
    · exact Or.inl h'
    · exact Or.inr h'

lemma clipRange_mem {lo hi : Int} {thumbs : Nat} {i : Int}
    (h : i ∈ clipRange lo hi thumbs) : 0 ≤ i ∧ i < (thumbs : Int) := by
  rw [clipRange] at h
  obtain ⟨p, hp, rfl⟩ := Finset.mem_image.mp h
  obtain ⟨_, hp2⟩ := Finset.mem_filter.mp hp
  exact ⟨hp2.1, hp2.2⟩

lemma select_page_range_selected {a b i : Int} {st : AppState}
    (h : i ∈ (select_page_range a b st).selected) :
    i ∈ st.selected ∨ (0 ≤ i ∧ i < (st.thumbs : Int)) := by
  rw [select_page_range] at h
  rcases Finset.mem_union.mp h with h' | h'
  · exact Or.inl h'
  · exact Or.inr (clipRange_mem h')

lemma handle_page_click_spec (sh : Bool) (p : Int) (st : AppState) :
    ((handle_page_click sh p st).selected =
        (select_page_range st.lastSelected p st).selected ∨
     (handle_page_click sh p st).selected = (toggle_single_page p st).selected) ∧
    (handle_page_click sh p st).thumbs = st.thumbs ∧
    (handle_page_click sh p st).totalPages = st.totalPages ∧
    (handle_page_click sh p st).lastSelected = p := by
  rw [handle_page_click]
  by_cases hc : sh = true ∧ 0 ≤ st.lastSelected
  · rw [if_pos hc]
    exact ⟨Or.inl rfl, rfl, rfl, rfl⟩
  · rw [if_neg hc]
    exact ⟨Or.inr rfl, rfl, rfl, rfl⟩

lemma select_all_selected {i : Int} {st : AppState}
    (h : i ∈ (select_all_pages st).selected) :
    i ∈ st.selected ∨ (0 ≤ i ∧ i < (st.thumbs : Int)) := by
  rw [select_all_pages] at h
  by_cases h0 : st.thumbs = 0
  · rw [if_pos h0] at h
    exact Or.inl h
  · rw [if_neg h0] at h
    right
    have h' : i ∈ (Finset.range st.thumbs).image (fun i : Nat => (i : Int)) := h
    obtain ⟨m, hm, rfl⟩ := Finset.mem_image.mp h'
    have hmr := Finset.mem_range.mp hm
    exact ⟨Int.natCast_nonneg m, by exact_mod_cast hmr⟩

lemma select_all_fields (st : AppState) :
    (select_all_pages st).thumbs = st.thumbs ∧
    (select_all_pages st).totalPages = st.totalPages := by
  rw [select_all_pages]
  by_cases h0 : st.thumbs = 0
  · rw [if_pos h0]
    exact ⟨rfl, rfl⟩
  · rw [if_neg h0]
    exact ⟨rfl, rfl⟩

lemma on_page_spec_change_selected {i : Int} {st : AppState} {v : List Char}
    (h : i ∈ (on_page_spec_change st v).selected) :
    i ∈ st.selected ∨ (0 ≤ i ∧ i < (st.thumbs : Int)) := by
  rw [on_page_spec_change] at h
  by_cases hg : st.thumbs = 0 ∨ pyStrip v = []
  · rw [if_pos hg] at h
    exact Or.inl h
  · rw [if_neg hg] at h
    cases hp : parse_pages v st.thumbs with
    | error e =>
      rw [hp] at h
      exact Or.inl h
    | ok pages =>
      rw [hp] at h
      right
      have h' : i ∈ (pages.map (fun n : Nat => (n : Int))).toFinset := h
      rw [List.mem_toFinset, List.mem_map] at h'
      obtain ⟨m, hm, rfl⟩ := h'
      have hlt := parse_pages_lt hp m hm
      exact ⟨Int.natCast_nonneg m, by exact_mod_cast hlt⟩

lemma on_page_spec_change_fields (st : AppState) (v : List Char) :
    (on_page_spec_change st v).thumbs = st.thumbs ∧
    (on_page_spec_change st v).totalPages = st.totalPages ∧
    (on_page_spec_change st v).lastSelected = st.lastSelected := by
  rw [on_page_spec_change]
  by_cases hg : st.thumbs = 0 ∨ pyStrip v = []
  · rw [if_pos hg]
    exact ⟨rfl, rfl, rfl⟩
  · rw [if_neg hg]
    cases parse_pages v st.thumbs with
    | error e => exact ⟨rfl, rfl, rfl⟩
    | ok pages => exact ⟨rfl, rfl, rfl⟩

/-- Every state reachable through the UI wiring keeps all selected indices
inside `[0, thumbs)`, with `thumbs ≤ totalPages` and `thumbs ≤ 100`. -/
lemma reaches_invariant : ∀ st : AppState, Reaches st →
    (∀ i ∈ st.selected, 0 ≤ i ∧ i < (st.thumbs : Int)) ∧
    st.thumbs ≤ st.totalPages ∧ st.thumbs ≤ 100 := by
  intro st h
  induction h with
  | init =>
    refine ⟨?_, Nat.zero_le _, Nat.zero_le _⟩
    intro i hi
    exact absurd hi (Finset.not_mem_empty i)
  | load n hst ih =>
    refine ⟨?_, Nat.min_le_left n 100, Nat.min_le_right n 100⟩
    intro i hi
    exact absurd hi (Finset.not_mem_empty i)
  | clearThumbs hst ih =>
    refine ⟨?_, Nat.zero_le _, Nat.zero_le _⟩
    intro i hi
    exact absurd hi (Finset.not_mem_empty i)
  | click p hst h1 h2 ih =>
    rename_i st0
    refine ⟨?_, ih.2.1, ih.2.2⟩
    intro i hi
    have hth : ((toggle_page p st0).thumbs : Int) = (st0.thumbs : Int) := rfl
    rw [hth]
    rcases toggle_selected_cases hi with rfl | h'
    · omega
    · exact ih.1 i h'
  | shiftClick sh p hst h1 h2 ih =>
    rename_i st0
    obtain ⟨hsel, hth, hto, _⟩ := handle_page_click_spec sh p st0
    refine ⟨?_, ?_, ?_⟩
    · intro i hi
      rw [hth]
      rcases hsel with he | he
      · rw [he] at hi
        rcases select_page_range_selected hi with h' | h'
        · exact ih.1 i h'
        · exact h'
      · rw [he] at hi
        rcases toggle_selected_cases hi with rfl | h'
        · omega
        · exact ih.1 i h'
    · rw [hth, hto]
      exact ih.2.1
    · rw [hth]
      exact ih.2.2
  | selAll hst ih =>
    rename_i st0
    obtain ⟨hth, hto⟩ := select_all_fields st0
    refine ⟨?_, ?_, ?_⟩
    · intro i hi
      rw [hth]
      rcases select_all_selected hi with h' | h'
      · exact ih.1 i h'
      · exact h'
    · rw [hth, hto]
      exact ih.2.1
    · rw [hth]
      exact ih.2.2
  | deselAll hst ih =>
    refine ⟨?_, ih.2.1, ih.2.2⟩
    intro i hi
    exact absurd hi (Finset.not_mem_empty i)
  | specChange v hst ih =>
    rename_i st0
    obtain ⟨hth, hto, _⟩ := on_page_spec_change_fields st0 v
    refine ⟨?_, ?_, ?_⟩
    · intro i hi
      rw [hth]
      rcases on_page_spec_change_selected hi with h' | h'
      · exact ih.1 i h'
      · exact h'
    · rw [hth, hto]
      exact ih.2.1
    · rw [hth]
      exact ih.2.2

/-- Claim C6 counterexample: the claim says a toggle of a page outside
`[1, totalPages]` fails with BoundsError, but `toggle_page` performs no
bounds check: toggling page 5 in a 2-page (2-thumbnail) state succeeds and
happily inserts the out-of-range index 4 into the selection. -/
theorem claim_C6_cex :
    toggle_page 5 (AppState.mk (∅ : Finset Int) (-1) 2 2) =
      AppState.mk ({4} : Finset Int) (-1) 2 2 := by
  decide

/-- Claim C6 (amended): `toggle` never fails — for every 1-based `page`
(in range or not) it flips membership of index `page - 1` in the selected
set and touches nothing else; the anchor is not set by the toggle itself but
by the enclosing click handler (`handle_page_click`), which records the
clicked page. -/
theorem claim_C6_amended (p : Int) (st : AppState) :
    (∀ i : Int, i ∈ (toggle_page p st).selected ↔
      (if i = p - 1 then ¬ i ∈ st.selected else i ∈ st.selected)) ∧
    (toggle_page p st).lastSelected = st.lastSelected ∧
    (toggle_page p st).totalPages = st.totalPages ∧
    (toggle_page p st).thumbs = st.thumbs ∧
    (handle_page_click false p st).lastSelected = p ∧
    (handle_page_click false p st).selected = (toggle_page p st).selected := by
  refine ⟨?_, rfl, rfl, rfl, rfl, rfl⟩
  intro i
  rw [toggle_page, toggle_single_page]
  show i ∈ (if p - 1 ∈ st.selected then st.selected.erase (p - 1)
      else insert (p - 1) st.selected) ↔ _
  by_cases hm : p - 1 ∈ st.selected
  · rw [if_pos hm, Finset.mem_erase]
    by_cases hi : i = p - 1
    · rw [if_pos hi]
      subst hi
      simp [hm]
    · rw [if_neg hi]
      simp [hi]
  · rw [if_neg hm, Finset.mem_insert]
    by_cases hi : i = p - 1
    · rw [if_pos hi]
      subst hi
      simp [hm]
    · rw [if_neg hi]
      simp [hi]

/-- Claim C7 counterexample: the claim says the added pages are those within
`[1, totalPages]`, but `select_page_range` clips at the thumbnail count
`len(self.thumbnails)`, which after loading a 150-page document is
`min(150, 100) = 100`: `selectRange(120, 120)` adds nothing — in particular
not index 119 — even though page 120 lies within `[1, 150]`. -/
theorem claim_C7_cex :
    select_page_range 120 120 (load_pdf 150 initState) = load_pdf 150 initState ∧
    (119 : Int) ∉ (select_page_range 120 120 (load_pdf 150 initState)).selected ∧
    1 ≤ (120 : Int) ∧ (120 : Int) ≤ ((load_pdf 150 initState).totalPages : Int) := by
  refine ⟨by decide, by decide, by decide, by decide⟩

/-- Claim C7 (amended): range selection never fails and is symmetric in its
endpoints: for all 1-based endpoints (stale or out of document), it adds
exactly the indices `page - 1` for every `page` in `[min, max]` that lies
within `[1, thumbnailCount]` — the thumbnail count, `min(totalPages, 100)`
after a load, not `totalPages` itself — silently clipping the rest, and
changes nothing else;  consequently `selectRange(2,5)` and `selectRange(5,2)`
on the same prior state produce identical states. -/
theorem claim_C7 (a b : Int) (st : AppState) :
    select_page_range a b st = select_page_range b a st ∧
    (∀ i : Int, i ∈ (select_page_range a b st).selected ↔
      i ∈ st.selected ∨ ∃ p : Int, min a b ≤ p ∧ p ≤ max a b ∧ 1 ≤ p ∧
        p ≤ (st.thumbs : Int) ∧ i = p - 1) ∧
    (select_page_range a b st).lastSelected = st.lastSelected ∧
    (select_page_range a b st).totalPages = st.totalPages ∧
    (select_page_range a b st).thumbs = st.thumbs := by
  refine ⟨?_, ?_, rfl, rfl, rfl⟩
  · rw [select_page_range, select_page_range, min_comm, max_comm]
  · intro i
    rw [select_page_range]
    show i ∈ st.selected ∪ clipRange (min a b) (max a b) st.thumbs ↔ _
    rw [Finset.mem_union, clipRange]
    simp only [Finset.mem_image, Finset.mem_filter, Finset.mem_Icc]
    constructor
    · rintro (h | ⟨p, ⟨⟨hp1, hp2⟩, hp3, hp4⟩, rfl⟩)
      · exact Or.inl h
      · exact Or.inr ⟨p, hp1, hp2, by omega, by omega, rfl⟩
    · rintro (h | ⟨p, hp1, hp2, hp3, hp4, rfl⟩)
      · exact Or.inl h
      · exact Or.inr ⟨p, ⟨⟨hp1, hp2⟩, by omega, by omega⟩, rfl⟩

/-- Claim C8 counterexample: the claim says an empty or whitespace-only spec
replaces the selection with the empty set, but `on_page_spec_change` returns
early on such input: with `{0}` selected and three thumbnails, a `" "` edit
leaves the selection at `{0}` instead of clearing it. -/
theorem claim_C8_cex :
    on_page_spec_change (AppState.mk ({0} : Finset Int) (-1) 3 3) ((" ").data) =
      AppState.mk ({0} : Finset Int) (-1) 3 3 ∧
    (AppState.mk ({0} : Finset Int) (-1) 3 3).selected ≠ (∅ : Finset Int) := by
  constructor
  · decide
  · decide

/-- Claim C8 (amended): `parse_pages` of an empty or whitespace-only spec is
a success case yielding the empty sequence for any bound, but
`on_page_spec_change` filters such input out early and leaves the whole
state — the selected set and the anchor — unchanged rather than clearing
the selection. -/
theorem claim_C8_amended :
    (∀ (spec : List Char) (N : Nat), pyStrip spec = [] → parse_pages spec N = .ok []) ∧
    (∀ (st : AppState) (v : List Char), pyStrip v = [] → on_page_spec_change st v = st) := by
  constructor
  · intro spec N h
    rw [parse_pages, if_pos h]
  · intro st v h
    rw [on_page_spec_change, if_pos (Or.inr h)]

/-- Claim C8 witness: the amended behavior evaluated at a whitespace-only
spec, `N = 0`, and a state with `{0}` selected. -/
theorem claim_C8_witness :
    parse_pages ((" ").data) 0 = .ok [] ∧
    on_page_spec_change (AppState.mk ({0} : Finset Int) (-1) 3 3) ((" ").data) =
      AppState.mk ({0} : Finset Int) (-1) 3 3 :=
  ⟨claim_C8_amended.1 ((" ").data) 0 (by decide),
   claim_C8_amended.2 (AppState.mk ({0} : Finset Int) (-1) 3 3) ((" ").data) (by decide)⟩

/-- Claim C9: loading a document (including on top of an active one) resets
the selection to empty and the anchor to none (`-1`), and along every
reachable sequence of operations every selected index stays inside
`[0, totalPages)` of the currently loaded document — no stale out-of-range
index survives a load. -/
theorem claim_C9 :
    (∀ (n : Nat) (st : AppState), (load_pdf n st).selected = ∅ ∧
      (load_pdf n st).lastSelected = -1) ∧
    (∀ st : AppState, Reaches st → ∀ i ∈ st.selected,
      0 ≤ i ∧ i < (st.totalPages : Int)) := by
  refine ⟨fun n st => ⟨rfl, rfl⟩, ?_⟩
  intro st h i hi
  obtain ⟨hsel, hle, _⟩ := reaches_invariant st h
  have h1 := hsel i hi
  have hc : (st.thumbs : Int) ≤ (st.totalPages : Int) := by exact_mod_cast hle
  omega

/-- Claim C9 witness: the invariant evaluated on the reachable state with
page 1 toggled after loading a 1-page document. -/
theorem claim_C9_witness :
    (0 : Int) ≤ 0 ∧ (0 : Int) < ((toggle_page 1 (load_pdf 1 initState)).totalPages : Int) :=
  claim_C9.2 (toggle_page 1 (load_pdf 1 initState))
    (Reaches.click 1 (Reaches.load 1 Reaches.init) (by decide) (by decide)) 0 (by decide)

/-- Claim C10 (implicit): the selection universe is capped at 100 pages —
after loading an `n`-page document the thumbnail count is `min n 100`;
select-all selects exactly `range(thumbnailCount)`; the spec field is
validated against the thumbnail count (indices a spec edit can introduce
are below it); and no reachable state selects an index `≥ 100`. -/
theorem claim_C10 :
    (∀ (n : Nat) (st : AppState), (load_pdf n st).thumbs = min n 100) ∧
    (∀ st : AppState, Reaches st → ∀ i ∈ st.selected, 0 ≤ i ∧ i < (100 : Int)) ∧
    (∀ st : AppState, st.thumbs ≠ 0 →
      (select_all_pages st).selected =
        (Finset.range st.thumbs).image (fun i : Nat => (i : Int))) ∧
    (∀ (st : AppState) (v : List Char) (i : Int),
      i ∈ (on_page_spec_change st v).selected →
      i ∈ st.selected ∨ (0 ≤ i ∧ i < (st.thumbs : Int))) := by
  refine ⟨fun n st => rfl, ?_, ?_, fun st v i h => on_page_spec_change_selected h⟩
  · intro st h i hi
    obtain ⟨hsel, _, h100⟩ := reaches_invariant st h
    have h1 := hsel i hi
    have hc : (st.thumbs : Int) ≤ 100 := by exact_mod_cast h100
    omega
  · intro st h0
    rw [select_all_pages, if_neg h0]

/-- Claim C10 witness: the cap evaluated on the reachable state with page 1
toggled after loading a 1-page document. -/
theorem claim_C10_witness : (0 : Int) ≤ 0 ∧ (0 : Int) < 100 :=
  claim_C10.2.1 (toggle_page 1 (load_pdf 1 initState))
    (Reaches.click 1 (Reaches.load 1 Reaches.init) (by decide) (by decide)) 0 (by decide)

/-! ### Remaining testable properties from the spec (section 8) -/

theorem parse_example_single_and_range : parse_pages ("1,3-5").data 5 = .ok [0, 2, 3, 4] := by
  decide

theorem parse_example_duplicates : parse_pages ("2,2,1-3").data 5 = .ok [0, 1, 2] := by
  decide

theorem parse_example_empty : parse_pages ("").data 0 = .ok [] := by decide

theorem parse_example_whitespace : parse_pages (" ").data 7 = .ok [] := by decide

theorem parse_example_zero : parse_pages ("0").data 5 = .error (.pageOut 0 5) := by decide

theorem parse_example_too_large : parse_pages ("6").data 5 = .error (.pageOut 6 5) := by decide

theorem parse_example_inverted : parse_pages ("3-2").data 5 = .error (.inverted ("3-2").data) := by
  decide

theorem parse_example_format : parse_pages ("abc").data 5 = .error (.badFormat ("abc").data) := by
  decide

theorem serialize_example_coalesce : serializePages {0, 1, 2, 4, 6, 7} = ("1-3,5,7-8").data := by
  decide

theorem serialize_example_runs : serializePages {0, 1, 2, 4} = ("1-3,5").data := by decide

theorem serialize_example_empty : serializePages ∅ = [] := by decide

/-- Toggling the same page twice restores the selection (spec section 8). -/
theorem toggle_involutive (p : Int) (st : AppState) :
    (toggle_page p (toggle_page p st)).selected = st.selected := by
  rw [toggle_page, toggle_page, toggle_single_page, toggle_single_page]
  by_cases hm : p - 1 ∈ st.selected
  · rw [if_pos hm]
    show (if p - 1 ∈ st.selected.erase (p - 1) then _ else insert (p - 1) (st.selected.erase (p - 1))) = _
    rw [if_neg (Finset.not_mem_erase (p - 1) st.selected), Finset.insert_erase hm]
  · rw [if_neg hm]
    show (if p - 1 ∈ insert (p - 1) st.selected then (insert (p - 1) st.selected).erase (p - 1) else _) = _
    rw [if_pos (Finset.mem_insert_self (p - 1) st.selected),
        Finset.erase_insert hm]
